import Mathlib

/-!
Verification of the evalue library (two-sample e-value tests).

This file gives a shallow embedding, over the real numbers, of the numerical
core of the library: the moment-prior e-process `Mom` and its e-value formula,
the two-sample t-statistic `TStat`, the confidence-interval solver `Mom.CI`,
the monotone bracket finder `findBracketMono`, the deterministic batch-size
solver `getNPlanBatch` of the sample-size planner, the incremental
checkpoint statistics of the planner's simulation loop, and the noncentral-t
CDF (algorithm AS 243).

External numerical primitives that the library receives from its numerics
dependencies (the Gaussian hypergeometric function, the bracketed Brent root
finder, the regularized incomplete beta function, the complementary error
function, and the standard normal quantile) are taken as explicit function
parameters of the embedding.  Floating-point arithmetic is modelled by exact
real arithmetic; a float NaN result is modelled by `Option.none`.
-/

namespace EvalueVerif

noncomputable section

/-- Hyper2F1 is the type of the external Gaussian hypergeometric primitive
`mathext.Hypergeo(a, b, c, z)`, a parameter of the embedding. -/
abbrev Hyper2F1 := ℝ → ℝ → ℝ → ℝ → ℝ

/-- BrentSolver is the type of the external bracketed root-finder
`root.Brent(f, a, b, tol)`: `some` root on success, `none` on failure. -/
abbrev BrentSolver := (ℝ → ℝ) → ℝ → ℝ → ℝ → Option ℝ

/-- Mom is an e-process based on a non-local moment prior, holding the single
tuning scalar `G` (struct `Mom` in evalue.go). -/
structure Mom where
  G : ℝ

/-- NewMom embeds `NewMom(deltaMin)` from evalue.go: it sets
`G = deltaMin * deltaMin / 2`. -/
def NewMom (deltaMin : ℝ) : Mom :=
  ⟨deltaMin * deltaMin / 2⟩

/-- Mom.eValue embeds the method `(p *Mom) eValue(t, nu, nEff)` of evalue.go:
with `k = 1`,
`e1 = math.Pow(1+nEff*g, -k-1./2)`,
`e2 = mathext.Hypergeo((nu+1)/2, k+1./2, 1./2, t*t/(nu+t*t)*nEff*g/(1+nEff*g))`,
result `e1 * e2`.  The constant `k = 1` is inlined, and `hyp` stands for the
external hypergeometric primitive. -/
def Mom.eValue (hyp : Hyper2F1) (p : Mom) (t nu nEff : ℝ) : ℝ :=
  (1 + nEff * p.G) ^ (-(1 : ℝ) - 1 / 2) *
    hyp ((nu + 1) / 2) ((1 : ℝ) + 1 / 2) (1 / 2)
      (t * t / (nu + t * t) * nEff * p.G / (1 + nEff * p.G))

/-- eValueSpecFormula states the specification's core formula with the
constant `k = 1` written out:
`(1 + n_eff*G)^(-3/2) * 2F1((nu+1)/2, 3/2; 1/2; t^2/(nu+t^2) * n_eff*G/(1+n_eff*G))`.
It is written from the specification's words, to be compared with
`Mom.eValue`, which is written from the source. -/
def eValueSpecFormula (hyp : Hyper2F1) (G t nu nEff : ℝ) : ℝ :=
  (1 + nEff * G) ^ (-(3 : ℝ) / 2) *
    hyp ((nu + 1) / 2) (3 / 2) (1 / 2)
      (t ^ 2 / (nu + t ^ 2) * (nEff * G / (1 + nEff * G)))

/-- listMean embeds `stat.Mean`: the arithmetic mean, sum divided by length. -/
def listMean (l : List ℝ) : ℝ :=
  l.sum / l.length

/-- listVariance embeds `stat.Variance`: the Bessel-corrected sample variance,
the sum of squared deviations from the mean divided by `length - 1`. -/
def listVariance (l : List ℝ) : ℝ :=
  ((l.map fun v => (v - listMean l) ^ 2).sum) / ((l.length : ℝ) - 1)

/-- TStatistic mirrors the struct `TStatistic` of evalue.go. -/
structure TStatistic where
  Nu : ℝ
  NEff : ℝ
  Mean1 : ℝ
  Mean2 : ℝ
  Sp : ℝ
  T : ℝ

/-- TStat embeds `TStat(x1, x2, phi0)` from evalue.go:
`nu = n1+n2-2`, `nEff = n1*n2/(n1+n2)`, the two means,
`sp = sqrt(1/nu * ((n1-1)*Var(x1) + (n2-1)*Var(x2)))` and
`t = sqrt(nEff) * (mean1 - mean2 - phi0) / sp`. -/
def TStat (x1 x2 : List ℝ) (phi0 : ℝ) : TStatistic :=
  let n1 : ℝ := x1.length
  let n2 : ℝ := x2.length
  let nu := n1 + n2 - 2
  let nEff := n1 * n2 / (n1 + n2)
  let mean1 := listMean x1
  let mean2 := listMean x2
  let sp := Real.sqrt (1 / nu * ((n1 - 1) * listVariance x1 + (n2 - 1) * listVariance x2))
  let t := Real.sqrt nEff * (mean1 - mean2 - phi0) / sp
  ⟨nu, nEff, mean1, mean2, sp, t⟩

/-- Mom.EValue embeds `(p *Mom) EValue(x, y)` from evalue.go: the e-value of
the two-sample t-statistic of the data at `phi0 = 0`. -/
def Mom.EValue (hyp : Hyper2F1) (p : Mom) (x y : List ℝ) : ℝ :=
  p.eValue hyp (TStat x y 0).T (TStat x y 0).Nu (TStat x y 0).NEff

/-- machineEps models `tol := math.Nextafter(1, 2) - 1` in `Mom.CI`,
the double-precision machine epsilon `2^(-52)`. -/
def machineEps : ℝ :=
  (2 : ℝ) ^ (-(52 : ℤ))

/-- ciObjective is the closure `f(t) = p.eValue(t, nu, nEff) - 1/alpha` that
`Mom.CI` hands to Brent's method, with `nu`, `nEff` from `TStat(x, y, 0)`. -/
def ciObjective (hyp : Hyper2F1) (p : Mom) (x y : List ℝ) (alpha : ℝ) : ℝ → ℝ :=
  fun t => p.eValue hyp t (TStat x y 0).Nu (TStat x y 0).NEff - 1 / alpha

/-- ciSearch embeds the bracket-doubling loop of `Mom.CI`:
`for ; b < maxB; b *= 2 { tAlpha, err = root.Brent(f, 0, b, tol); if err == nil break }`
with `maxB = 12 * 2^15` and `tol = machineEps`.  The fuel argument only bounds
the recursion; the loop itself stops via the `b < 12*2^15` test, and the caller
supplies fuel `16`, one more than the 15 values `b = 12*2^k`, `k = 0..14`, that
the test admits, so the fuel is never exhausted first. -/
def ciSearch (brent : BrentSolver) (f : ℝ → ℝ) : ℕ → ℝ → Option ℝ
  | 0, _ => none
  | fuel + 1, b =>
    if b < 12 * 2 ^ 15 then
      match brent f 0 b machineEps with
      | some r => some r
      | none => ciSearch brent f fuel (b * 2)
    else none

/-- Mom.CI embeds `(p *Mom) CI(x, y, alpha)` from evalue.go.  The pair of
float bounds is modelled in the extended reals, the failure value
`{math.Inf(-1), math.Inf(1)}` becoming `(⊥, ⊤)`.  On success at root `tAlpha`,
`width = t.Sp / sqrt(nEff) * tAlpha` and the interval is
`[mean1 - mean2 - width, mean1 - mean2 + width]`. -/
def Mom.CI (brent : BrentSolver) (hyp : Hyper2F1) (p : Mom) (x y : List ℝ)
    (alpha : ℝ) : EReal × EReal :=
  match ciSearch brent (ciObjective hyp p x y alpha) 16 12 with
  | none => (⊥, ⊤)
  | some tAlpha =>
    ((((TStat x y 0).Mean1 - (TStat x y 0).Mean2 -
        (TStat x y 0).Sp / Real.sqrt (TStat x y 0).NEff * tAlpha : ℝ) : EReal),
      (((TStat x y 0).Mean1 - (TStat x y 0).Mean2 +
        (TStat x y 0).Sp / Real.sqrt (TStat x y 0).NEff * tAlpha : ℝ) : EReal))

/-- bracketLoop embeds the 200-iteration loop of `findBracketMono`:
`for range 200 { if Signbit(fa) != Signbit(fb) || fa == 0 || fb == 0 { break };
a, fa = b, fb; b *= r; fb = f(b) }; return a, b`.
The fuel argument counts the remaining loop iterations; at fuel 0 the current
pair is returned, matching the exit by range exhaustion after 200 advances.
Over the reals, `Signbit(v)` is `v < 0` (the float negative zero has no real
counterpart). -/
def bracketLoop (f : ℝ → ℝ) (r : ℝ) : ℕ → ℝ → ℝ → ℝ × ℝ
  | 0, a, b => (a, b)
  | n + 1, a, b =>
    if ((f a < 0) ≠ (f b < 0)) ∨ f a = 0 ∨ f b = 0 then (a, b)
    else bracketLoop f r n b (b * r)

/-- normGuess embeds the guess normalization at the top of `findBracketMono`:
`if (guess < 0 && f0 < 0) || (guess > 0 && f0 > 0) { guess *= -1 }`. -/
def normGuess (f : ℝ → ℝ) (guess : ℝ) : ℝ :=
  if (guess < 0 ∧ f 0 < 0) ∨ (0 < guess ∧ 0 < f 0) then -guess else guess

/-- expandRate embeds the choice of the interval adjustment rate in
`findBracketMono`: `r = 2` if `(a > 0) == (fa < 0)`, else `r = 1/2`. -/
def expandRate (f : ℝ → ℝ) (a : ℝ) : ℝ :=
  if (0 < a) = (f a < 0) then 2 else 1 / 2

/-- findBracketMono embeds `findBracketMono(f, guess)` (the monotone bracket
finder of the evalue package): normalize the guess, pick the rate, then run the
200-iteration expansion loop from `a = guess`, `b = a * r`. -/
def findBracketMono (f : ℝ → ℝ) (guess : ℝ) : ℝ × ℝ :=
  bracketLoop f (expandRate f (normGuess f guess)) 200 (normGuess f guess)
    (normGuess f guess * expandRate f (normGuess f guess))

/-- bracketProp is the claimed postcondition on the pair returned by
`findBracketMono`: the signs of `f` at the endpoints disagree, or `f` is
exactly zero at one of them. -/
def bracketProp (f : ℝ → ℝ) (pr : ℝ × ℝ) : Prop :=
  ((f pr.1 < 0) ≠ (f pr.2 < 0)) ∨ f pr.1 = 0 ∨ f pr.2 = 0

/-- NoncentralT mirrors the struct `NoncentralT{Nu, Ncp}` of distuv/noncentralt.go. -/
structure NoncentralT where
  Nu : ℝ
  Ncp : ℝ

/-- NoncentralT.Quantile embeds the stub `Quantile(p)` of distuv/noncentralt.go,
whose entire body is `return -1`: the sentinel `-1` for every input. -/
def NoncentralT.Quantile (dist : NoncentralT) (pr : ℝ) : ℝ :=
  -1

/-- nPlanObjective is the closure `f(nEff)` defined inside `getNPlanBatch`:
`nu = Pow(1+ratio, 2)/ratio*nEff - 2`,
`t = NoncentralT{Nu: nu, Ncp: sqrt(nEff)*delta}.Quantile(beta)`,
`f = p.eValue(t, nu, nEff) - 1/alpha`. -/
def nPlanObjective (hyp : Hyper2F1) (p : Mom) (alpha beta delta rat : ℝ) : ℝ → ℝ :=
  fun nEff =>
    p.eValue hyp
      ((NoncentralT.mk ((1 + rat) ^ 2 / rat * nEff - 2) (Real.sqrt nEff * delta)).Quantile beta)
      ((1 + rat) ^ 2 / rat * nEff - 2) nEff - 1 / alpha

/-- gnpGuess embeds the closed-form initial guess of `getNPlanBatch`, where
`normQ` stands for the external standard normal quantile
`distuv.Normal{Sigma: 1}.Quantile`:
`guess = 2/(delta*delta) * (qB*qB - qB*sqrt(qB*qB + 2*log(1/alpha)) + log(1/alpha))`. -/
def gnpGuess (normQ : ℝ → ℝ) (alpha beta delta : ℝ) : ℝ :=
  2 / (delta * delta) *
    (normQ beta * normQ beta -
      normQ beta * Real.sqrt (normQ beta * normQ beta + 2 * Real.log (1 / alpha)) +
      Real.log (1 / alpha))

/-- getNPlanBatch embeds `getNPlanBatch(alpha, beta, delta, ratio, p)` of
evalue.go: `delta` is replaced by `|delta|`; `findBracketMono` grows a bracket
around the guess; Brent solves at tolerance `eps^0.25`; on root-finding failure
the sentinel pair `(-1, -1)` is returned, otherwise
`(ceil(nEff*(1+ratio)/ratio), ceil(nEff*(1+ratio)))`. -/
def getNPlanBatch (brent : BrentSolver) (hyp : Hyper2F1) (normQ : ℝ → ℝ)
    (alpha beta delta rat : ℝ) (p : Mom) : ℤ × ℤ :=
  match brent (nPlanObjective hyp p alpha beta |delta| rat)
      (findBracketMono (nPlanObjective hyp p alpha beta |delta| rat)
        (gnpGuess normQ alpha beta |delta|)).1
      (findBracketMono (nPlanObjective hyp p alpha beta |delta| rat)
        (gnpGuess normQ alpha beta |delta|)).2
      (machineEps ^ (0.25 : ℝ)) with
  | none => (-1, -1)
  | some nEff => (⌈nEff * (1 + rat) / rat⌉, ⌈nEff * (1 + rat)⌉)

/-- gnpN1Vector is the checkpoint vector `n1Vector` built by `GetNPlan`:
the integers `1 .. nPlanBatch1` (empty when `nPlanBatch1 < 1`). -/
def gnpN1Vector (nPlanBatch1 : ℤ) : List ℤ :=
  (List.range nPlanBatch1.toNat).map fun i => (i : ℤ) + 1

/-- gnpSampleLen is `sampleLen = max(nPlanBatch1, nPlanBatch2)`, the length
`GetNPlan` passes to `make([]float64, sampleLen)` for each per-trial sample
buffer; a Go `make` with negative length panics at run time. -/
def gnpSampleLen (b1 b2 : ℤ) : ℤ :=
  max b1 b2

/-- cumSumAt models the cumulative-sum read `b.cum[n-1]` of `interpolator.do`:
the sum of the first `n` sample values. -/
def cumSumAt (sample : List ℝ) (n : ℕ) : ℝ :=
  (sample.take n).sum

/-- cumSqAt models the cumulative-sum-of-squares read `b.cum2[n-1]` of
`interpolator.do`: the sum of squares of the first `n` sample values. -/
def cumSqAt (sample : List ℝ) (n : ℕ) : ℝ :=
  ((sample.take n).map fun v => v * v).sum

/-- checkpointEValue embeds one checkpoint of the simulation loop of `GetNPlan`
(evalue.go): `nu = n1+n2-2`, `nEff = n1*n2/(n1+n2)`, the interpolated values
`x1 = cum[n1-1]/n1`, `x1Sq = cum2[n1-1]` (and likewise for group 2); the
e-value defaults to 1, and when `nu > 0` it is `p.eValue(t, nu, nEff)` with
`sp = sqrt(1/nu*(x1Sq - n1*x1*x1 + x2Sq - n2*x2*x2))` and
`t = sqrt(nEff)*(x1-x2)/sp`. -/
def checkpointEValue (hyp : Hyper2F1) (p : Mom) (sample1 sample2 : List ℝ)
    (m1 m2 : ℕ) : ℝ :=
  let n1 : ℝ := m1
  let n2 : ℝ := m2
  let nu := n1 + n2 - 2
  let nEff := n1 * n2 / (n1 + n2)
  let x1 := cumSumAt sample1 m1 / n1
  let x2 := cumSumAt sample2 m2 / n2
  let x1Sq := cumSqAt sample1 m1
  let x2Sq := cumSqAt sample2 m2
  if 0 < nu then
    p.eValue hyp
      (Real.sqrt nEff * (x1 - x2) /
        Real.sqrt (1 / nu * (x1Sq - n1 * x1 * x1 + x2Sq - n2 * x2 * x2)))
      nu nEff
  else 1

/-- NCTState is the state carried across iterations of the AS 243 twin-series
loop of `NoncentralT.CDF`. -/
structure NCTState where
  a : ℝ
  xodd : ℝ
  xeven : ℝ
  godd : ℝ
  geven : ℝ
  p : ℝ
  q : ℝ
  s : ℝ
  tnc : ℝ

/-- nctStep is one iteration body of the AS 243 series loop (noncentralt.go),
with `it` the 1-based iteration counter:
`a += 1; xodd -= godd; xeven -= geven; godd *= x*(a+b-1)/a;
geven *= x*(a+b-0.5)/(a+0.5); p *= lambda/(2 it); q *= lambda/(2 it + 1);
s -= p; tnc += p*xodd + q*xeven`. -/
def nctStep (x lam bcoef : ℝ) (it : ℕ) (st : NCTState) : NCTState :=
  let a := st.a + 1
  let xodd := st.xodd - st.godd
  let xeven := st.xeven - st.geven
  let godd := st.godd * (x * (a + bcoef - 1) / a)
  let geven := st.geven * (x * (a + bcoef - 0.5) / (a + 0.5))
  let p := st.p * (lam / (2 * (it : ℝ)))
  let q := st.q * (lam / (2 * (it : ℝ) + 1))
  let s := st.s - p
  let tnc := st.tnc + (p * xodd + q * xeven)
  ⟨a, xodd, xeven, godd, geven, p, q, s, tnc⟩

/-- nctLoop is the bounded AS 243 series loop with its three exit tests in
source order (rounding guard `s < -1e-10`, then `s <= 0 && it > 1`, then the
error bound `|2s(xodd-godd)| < 1e-12`); a `goto finis` exit carries the partial
sum as `some tnc`, while exhausting the 1000-iteration budget falls through to
the overflow label, modelled as `none`. -/
def nctLoop (x lam bcoef : ℝ) : ℕ → ℕ → NCTState → Option ℝ
  | 0, _, _ => none
  | fuel + 1, it, st =>
    let st2 := nctStep x lam bcoef it st
    if st2.s < -1e-10 then some st2.tnc
    else if st2.s ≤ 0 ∧ 1 < it then some st2.tnc
    else if |2 * st2.s * (st2.xodd - st2.godd)| < 1e-12 then some st2.tnc
    else nctLoop x lam bcoef fuel (it + 1) st2

/-- pnormErfc embeds the helper `pnorm(x, mu, sigma, lowerTail)` of
noncentralt.go, written in terms of the external complementary error function:
`p = 0.5 * Erfc(-(x-mu)/(sigma*Sqrt2))`, returned as-is for the lower tail and
as `1 - p` otherwise. -/
def pnormErfc (erfc : ℝ → ℝ) (x mu sigma : ℝ) (lowerTail : Bool) : ℝ :=
  if lowerTail then 0.5 * erfc (-(x - mu) / (sigma * Real.sqrt 2))
  else 1 - 0.5 * erfc (-(x - mu) / (sigma * Real.sqrt 2))

/-- lgammaFn models `math.Lgamma`: the natural log of the absolute value of the
Gamma function. -/
def lgammaFn (x : ℝ) : ℝ :=
  Real.log |Real.Gamma x|

/-- nctOverflow embeds the `overflow:` branch of `NoncentralT.CDF` — the normal
approximation of Abramowitz and Stegun 26.7.10:
`s = 1/(4 df); return pnorm(tt*(1-s), del, sqrt(1+tt*tt*2*s), !negdel)`. -/
def nctOverflow (erfc : ℝ → ℝ) (df tt del : ℝ) (negdel : Bool) : ℝ :=
  pnormErfc erfc (tt * (1 - 1 / (4 * df))) del
    (Real.sqrt (1 + tt * tt * 2 * (1 / (4 * df)))) (!negdel)

/-- nctFinis embeds the `finis:` branch of `NoncentralT.CDF`:
`tnc += pnorm(-del, 0, 1, true); p = min(tnc, 1);` then `p` for a nonnegative
original argument and `0.5 - p + 0.5` otherwise. -/
def nctFinis (erfc : ℝ → ℝ) (del tnc : ℝ) (negdel : Bool) : ℝ :=
  if negdel then 0.5 - min (tnc + pnormErfc erfc (-del) 0 1 true) 1 + 0.5
  else min (tnc + pnormErfc erfc (-del) 0 1 true) 1

/-- nctSeries embeds the `x > 0` branch of `NoncentralT.CDF`: seed the twin
series (with the `p == 0` underflow test of the source, which over the exact
reals can never fire since `exp` is positive), run `nctLoop`, and dispatch to
the finis or overflow branch.  The decimal constants `sqrt2dPi` and `lnSqrtPi`
of the source stand for `sqrt(2/pi)` and `log(sqrt(pi))`. -/
def nctSeries (pbeta : ℝ → ℝ → ℝ → ℝ) (erfc : ℝ → ℝ)
    (df tt del x rxb0 : ℝ) (negdel : Bool) : ℝ :=
  let lam := del * del
  let p0 := 0.5 * Real.exp (-0.5 * lam)
  if p0 = 0 then nctOverflow erfc df tt del negdel
  else
    let q0 := Real.sqrt (2 / Real.pi) * p0 * del
    let s0 := if 0.5 - p0 < 1e-7 then -0.5 * (Real.exp (-0.5 * lam) - 1) else 0.5 - p0
    let acoef : ℝ := 0.5
    let bcoef := 0.5 * df
    let rxb := rxb0 ^ bcoef
    let albeta := Real.log (Real.sqrt Real.pi) + lgammaFn bcoef - lgammaFn (0.5 + bcoef)
    let xodd := pbeta x acoef bcoef
    let godd := 2 * rxb * Real.exp (acoef * Real.log x - albeta)
    let xeven := 1 - rxb
    let geven := bcoef * x * rxb
    let tnc1 := p0 * xodd + q0 * xeven
    match nctLoop x lam bcoef 1000 1 ⟨acoef, xodd, xeven, godd, geven, p0, q0, s0, tnc1⟩ with
    | some tnc2 => nctFinis erfc del tnc2 negdel
    | none => nctOverflow erfc df tt del negdel

/-- NoncentralT.CDF embeds `(dist NoncentralT) CDF(t)` of noncentralt.go
(Lenth's algorithm AS 243).  The guard `if df <= 0 { return math.NaN() }` is
modelled as `none` (NaN); every other path produces a value, so the function
is total and raises nothing.  After the guard: reflect negative `t`
(`negdel, tt, del`), set `x = t*t/(t*t+df)` and `rxb0 = df/(t*t+df)`; when
`x > 0` run the series branch, otherwise (`t = 0`, where the source's
`tnc = 0` assignment falls through to the overflow label) the overflow
branch. -/
def NoncentralT.CDF (pbeta : ℝ → ℝ → ℝ → ℝ) (erfc : ℝ → ℝ)
    (dist : NoncentralT) (t : ℝ) : Option ℝ :=
  if dist.Nu ≤ 0 then none
  else
    some
      (let negdel : Bool := !decide (0 ≤ t)
        let tt := if 0 ≤ t then t else -t
        let del := if 0 ≤ t then dist.Ncp else -dist.Ncp
        let x := t * t / (t * t + dist.Nu)
        let rxb0 := dist.Nu / (t * t + dist.Nu)
        if 0 < x then nctSeries pbeta erfc dist.Nu tt del x rxb0 negdel
        else nctOverflow erfc dist.Nu tt del negdel)

/-- C1: for every `t`, every `nu > 0` and every `n_eff > 0`, `Mom.eValue(t, nu, n_eff)`
with `G` set by `NewMom(deltaMin)` to `deltaMin^2/2` equals
`(1 + n_eff*G)^(-3/2) * 2F1((nu+1)/2, 3/2; 1/2; t^2/(nu+t^2) * n_eff*G/(1+n_eff*G))`,
the specification's core formula with `k = 1`. -/
theorem C1_eValue_matches_spec_formula (hyp : Hyper2F1) (deltaMin t nu nEff : ℝ)
    (hnu : 0 < nu) (hne : 0 < nEff) :
    (NewMom deltaMin).eValue hyp t nu nEff =
      eValueSpecFormula hyp (deltaMin * deltaMin / 2) t nu nEff := by
  have e1 : (-(1 : ℝ) - 1 / 2) = -(3 : ℝ) / 2 := by norm_num
  have e2 : ((1 : ℝ) + 1 / 2) = (3 : ℝ) / 2 := by norm_num
  have e3 : t * t / (nu + t * t) * nEff * (deltaMin * deltaMin / 2) /
        (1 + nEff * (deltaMin * deltaMin / 2)) =
      t ^ 2 / (nu + t ^ 2) *
        (nEff * (deltaMin * deltaMin / 2) / (1 + nEff * (deltaMin * deltaMin / 2))) := by
    ring
  simp only [Mom.eValue, eValueSpecFormula, NewMom, e1, e2, e3]

/-- C1 witness: the refinement theorem instantiated at
`deltaMin = 1`, `t = 0`, `nu = 1`, `nEff = 1`. -/
theorem C1_witness :
    (0 : ℝ) < 1 ∧
      (NewMom 1).eValue (fun _ _ _ _ => 0) 0 1 1 =
        eValueSpecFormula (fun _ _ _ _ => 0) (1 * 1 / 2) 0 1 1 :=
  ⟨by norm_num, C1_eValue_matches_spec_formula (fun _ _ _ _ => 0) 1 0 1 1
    (by norm_num) (by norm_num)⟩

/-- C6: for all `nu > 0`, `n_eff > 0`, `G > 0`, given that the external
hypergeometric primitive satisfies `2F1(.,.;.;0) = 1`, the e-value at `t = 0`
equals the closed-form factor `(1 + n_eff*G)^(-3/2)` and is at most `1`. -/
theorem C6_eValue_at_zero (hyp : Hyper2F1) (p : Mom) (nu nEff : ℝ)
    (hnu : 0 < nu) (hne : 0 < nEff) (hG : 0 < p.G)
    (hyp0 : ∀ a b c, hyp a b c 0 = 1) :
    p.eValue hyp 0 nu nEff = (1 + nEff * p.G) ^ (-(3 : ℝ) / 2) ∧
      p.eValue hyp 0 nu nEff ≤ 1 := by
  have hbase : (1 : ℝ) ≤ 1 + nEff * p.G := by nlinarith
  have harg : (0 : ℝ) * 0 / (nu + 0 * 0) * nEff * p.G / (1 + nEff * p.G) = 0 := by
    simp
  have he : p.eValue hyp 0 nu nEff = (1 + nEff * p.G) ^ (-(1 : ℝ) - 1 / 2) := by
    simp only [Mom.eValue]
    rw [harg, hyp0, mul_one]
  have hexp : (-(1 : ℝ) - 1 / 2) = -(3 : ℝ) / 2 := by norm_num
  refine ⟨by rw [he, hexp], ?_⟩
  rw [he]
  exact Real.rpow_le_one_of_one_le_of_nonpos hbase (by norm_num)

/-- C6 witness: the theorem instantiated at `nu = 1`, `nEff = 1`, `G = 1` and the
constant-one hypergeometric. -/
theorem C6_witness :
    (0 : ℝ) < 1 ∧
      (Mom.eValue (fun _ _ _ _ => 1) ⟨1⟩ 0 1 1 = (1 + 1 * (1 : ℝ)) ^ (-(3 : ℝ) / 2) ∧
        Mom.eValue (fun _ _ _ _ => 1) ⟨1⟩ 0 1 1 ≤ 1) :=
  ⟨by norm_num, C6_eValue_at_zero (fun _ _ _ _ => 1) ⟨1⟩ 1 1
    (by norm_num) (by norm_num) one_pos (fun _ _ _ => rfl)⟩

/-- C7: for fixed `nu > 0`, `n_eff > 0` and `G > 0`, and an external
hypergeometric primitive that is non-decreasing in its argument on `[0, 1)`,
`Mom.eValue` is non-decreasing in `|t|`. -/
theorem C7_eValue_monotone_in_abs_t (hyp : Hyper2F1) (p : Mom) (nu nEff t1 t2 : ℝ)
    (hnu : 0 < nu) (hne : 0 < nEff) (hG : 0 < p.G)
    (hmono : ∀ z1 z2, 0 ≤ z1 → z1 ≤ z2 → z2 < 1 →
      hyp ((nu + 1) / 2) ((1 : ℝ) + 1 / 2) (1 / 2) z1 ≤
        hyp ((nu + 1) / 2) ((1 : ℝ) + 1 / 2) (1 / 2) z2)
    (ht : |t1| ≤ |t2|) :
    p.eValue hyp t1 nu nEff ≤ p.eValue hyp t2 nu nEff := by
  have hprod : 0 < nEff * p.G := mul_pos hne hG
  have hden : (0 : ℝ) < 1 + nEff * p.G := by linarith
  have hq0 : 0 ≤ nEff * p.G / (1 + nEff * p.G) := le_of_lt (div_pos hprod hden)
  have hq1 : nEff * p.G / (1 + nEff * p.G) < 1 := by
    rw [div_lt_one hden]; linarith
  have hsq : t1 * t1 ≤ t2 * t2 := by
    have h := mul_self_le_mul_self (abs_nonneg t1) ht
    rwa [abs_mul_abs_self, abs_mul_abs_self] at h
  have hr : ∀ u : ℝ, 0 ≤ u → 0 ≤ u / (nu + u) ∧ u / (nu + u) < 1 := by
    intro u hu
    have hd : 0 < nu + u := by linarith
    exact ⟨div_nonneg hu hd.le, by rw [div_lt_one hd]; linarith⟩
  have hrmono : t1 * t1 / (nu + t1 * t1) ≤ t2 * t2 / (nu + t2 * t2) := by
    have h1 : 0 < nu + t1 * t1 := by nlinarith [mul_self_nonneg t1]
    have h2 : 0 < nu + t2 * t2 := by nlinarith [mul_self_nonneg t2]
    rw [div_le_div_iff h1 h2]
    nlinarith
  have hassoc : ∀ t : ℝ, t * t / (nu + t * t) * nEff * p.G / (1 + nEff * p.G)
      = t * t / (nu + t * t) * (nEff * p.G / (1 + nEff * p.G)) := by
    intro t; ring
  have hz0 : 0 ≤ t1 * t1 / (nu + t1 * t1) * (nEff * p.G / (1 + nEff * p.G)) :=
    mul_nonneg (hr _ (mul_self_nonneg t1)).1 hq0
  have hz12 : t1 * t1 / (nu + t1 * t1) * (nEff * p.G / (1 + nEff * p.G)) ≤
      t2 * t2 / (nu + t2 * t2) * (nEff * p.G / (1 + nEff * p.G)) :=
    mul_le_mul_of_nonneg_right hrmono hq0
  have hz1 : t2 * t2 / (nu + t2 * t2) * (nEff * p.G / (1 + nEff * p.G)) < 1 := by
    have h2 := hr (t2 * t2) (mul_self_nonneg t2)
    exact lt_of_le_of_lt (mul_le_of_le_one_right h2.1 hq1.le) h2.2
  simp only [Mom.eValue]
  rw [hassoc t1, hassoc t2]
  exact mul_le_mul_of_nonneg_left (hmono _ _ hz0 hz12 hz1)
    (Real.rpow_nonneg (by linarith) _)

/-- C7 witness: the monotonicity theorem instantiated with the identity-like
hypergeometric `fun _ _ _ z => z`, `G = nu = nEff = 1`, `t1 = 0`, `t2 = 1`. -/
theorem C7_witness :
    (0 : ℝ) < 1 ∧ |(0 : ℝ)| ≤ |(1 : ℝ)| ∧
      Mom.eValue (fun _ _ _ z => z) ⟨1⟩ 0 1 1 ≤ Mom.eValue (fun _ _ _ z => z) ⟨1⟩ 1 1 1 :=
  ⟨by norm_num, by norm_num,
    C7_eValue_monotone_in_abs_t (fun _ _ _ z => z) ⟨1⟩ 1 1 0 1
      (by norm_num) (by norm_num) one_pos
      (fun _ _ _ h12 _ => h12) (by norm_num)⟩

/-- Helper: the bracket-doubling search starting at `b = 12 * 2^j` with enough
fuel returns `none` exactly when Brent fails at every candidate `b = 12 * 2^k`
with `j ≤ k < 15`. -/
theorem ciSearch_none_iff (brent : BrentSolver) (f : ℝ → ℝ) :
    ∀ fuel j : ℕ, 15 ≤ j + fuel →
      (ciSearch brent f fuel (12 * 2 ^ j) = none ↔
        ∀ k, j ≤ k → k < 15 → brent f 0 (12 * 2 ^ k) machineEps = none) := by
  intro fuel
  induction fuel with
  | zero =>
    intro j hj
    simp only [ciSearch]
    constructor
    · intro _ k hk1 hk2
      omega
    · intro _
      trivial
  | succ n ih =>
    intro j hj
    by_cases hjlt : j < 15
    · have hb : (12 : ℝ) * 2 ^ j < 12 * 2 ^ 15 := by
        have h2 : (2 : ℝ) ^ j < 2 ^ 15 := by
          exact pow_lt_pow_right₀ one_lt_two hjlt
        linarith
      simp only [ciSearch, if_pos hb]
      cases hbr : brent f 0 (12 * 2 ^ j) machineEps with
      | some r =>
        constructor
        · intro h
          exact absurd h (by simp)
        · intro h
          exact absurd (h j le_rfl hjlt) (by simp [hbr])
      | none =>
        have h2 : (12 : ℝ) * 2 ^ j * 2 = 12 * 2 ^ (j + 1) := by ring
        rw [h2, ih (j + 1) (by omega)]
        constructor
        · intro h k hk1 hk2
          rcases eq_or_lt_of_le hk1 with rfl | hlt
          · exact hbr
          · exact h k hlt hk2
        · intro h k hk1 hk2
          exact h k (by omega) hk2
    · have hb : ¬ ((12 : ℝ) * 2 ^ j < 12 * 2 ^ 15) := by
        have h2 : (2 : ℝ) ^ 15 ≤ 2 ^ j := by
          exact pow_le_pow_right₀ one_le_two (by omega)
        push_neg
        linarith
      simp only [ciSearch, if_neg hb]
      constructor
      · intro _ k hk1 hk2
        omega
      · intro _
        trivial

/-- Helper: a root produced by the bracket-doubling search came from some
successful Brent invocation with tolerance `machineEps` and left end `0`. -/
theorem ciSearch_some_from_brent (brent : BrentSolver) (f : ℝ → ℝ) :
    ∀ fuel (b r : ℝ), ciSearch brent f fuel b = some r →
      ∃ b2, brent f 0 b2 machineEps = some r := by
  intro fuel
  induction fuel with
  | zero =>
    intro b r h
    simp [ciSearch] at h
  | succ n ih =>
    intro b r h
    simp only [ciSearch] at h
    by_cases hb : b < 12 * 2 ^ 15
    · rw [if_pos hb] at h
      cases hbr : brent f 0 b machineEps with
      | some r2 =>
        rw [hbr] at h
        exact ⟨b, by rw [hbr]; simpa using h⟩
      | none =>
        rw [hbr] at h
        exact ih _ _ h
    · rw [if_neg hb] at h
      exact absurd h (by simp)

/-- C4: `Mom.CI(x, y, alpha)` returns the unbounded interval `(-∞, +∞)` if and
only if the doubling search — candidate upper bound `b = 12 * 2^k` while it
stays below `12 * 2^15`, with Brent's method at tolerance `machineEps` invoked
at each doubling — finds no root over `[0, b]`; the unbounded interval is a
returned value, not a failure. -/
theorem C4_ci_unbounded_iff_search_exhausted (brent : BrentSolver) (hyp : Hyper2F1)
    (p : Mom) (x y : List ℝ) (alpha : ℝ) :
    Mom.CI brent hyp p x y alpha = (⊥, ⊤) ↔
      ∀ k < 15, brent (ciObjective hyp p x y alpha) 0 (12 * 2 ^ k) machineEps = none := by
  have hiff := ciSearch_none_iff brent (ciObjective hyp p x y alpha) 16 0 (by omega)
  norm_num at hiff
  constructor
  · intro hci
    have hnone : ciSearch brent (ciObjective hyp p x y alpha) 16 12 = none := by
      cases hs : ciSearch brent (ciObjective hyp p x y alpha) 16 12 with
      | none => rfl
      | some r =>
        unfold Mom.CI at hci
        rw [hs] at hci
        have hbot := congrArg Prod.fst hci
        exact absurd hbot (EReal.coe_ne_bot _)
    exact fun k hk => hiff.mp hnone k hk
  · intro h
    have hnone : ciSearch brent (ciObjective hyp p x y alpha) 16 12 = none :=
      hiff.mpr fun k hk => h k hk
    unfold Mom.CI
    rw [hnone]

/-- C5: when the search in `Mom.CI` succeeds with root `tAlpha`, the interval is
`[mean1 - mean2 - width, mean1 - mean2 + width]` with
`width = sp / sqrt(nEff) * tAlpha`, and — given the root-finder contract that a
returned root has residual at most `tolR` — the e-value at the boundary
t-value recovered from `width` equals `1/alpha` within `tolR`. -/
theorem C5_ci_success_roundtrip (brent : BrentSolver) (hyp : Hyper2F1) (p : Mom)
    (x y : List ℝ) (alpha tolR tAlpha : ℝ)
    (hne : 0 < (TStat x y 0).NEff) (hsp : (TStat x y 0).Sp ≠ 0)
    (hbrent : ∀ b r, brent (ciObjective hyp p x y alpha) 0 b machineEps = some r →
      |ciObjective hyp p x y alpha r| ≤ tolR)
    (hsome : ciSearch brent (ciObjective hyp p x y alpha) 16 12 = some tAlpha) :
    Mom.CI brent hyp p x y alpha =
      ((((TStat x y 0).Mean1 - (TStat x y 0).Mean2 -
          (TStat x y 0).Sp / Real.sqrt (TStat x y 0).NEff * tAlpha : ℝ) : EReal),
        (((TStat x y 0).Mean1 - (TStat x y 0).Mean2 +
          (TStat x y 0).Sp / Real.sqrt (TStat x y 0).NEff * tAlpha : ℝ) : EReal)) ∧
      |p.eValue hyp
          ((TStat x y 0).Sp / Real.sqrt (TStat x y 0).NEff * tAlpha *
            Real.sqrt (TStat x y 0).NEff / (TStat x y 0).Sp)
          (TStat x y 0).Nu (TStat x y 0).NEff - 1 / alpha| ≤ tolR := by
  have hsq : Real.sqrt (TStat x y 0).NEff ≠ 0 := ne_of_gt (Real.sqrt_pos.mpr hne)
  have hrec : (TStat x y 0).Sp / Real.sqrt (TStat x y 0).NEff * tAlpha *
      Real.sqrt (TStat x y 0).NEff / (TStat x y 0).Sp = tAlpha := by
    field_simp
  constructor
  · unfold Mom.CI
    rw [hsome]
  · rw [hrec]
    obtain ⟨b2, hb2⟩ := ciSearch_some_from_brent brent (ciObjective hyp p x y alpha) 16 12 tAlpha hsome
    have hres := hbrent b2 tAlpha hb2
    simpa [ciObjective] using hres

/-- C5 witness: the round-trip theorem instantiated at `x = y = [0, 1]`,
`alpha = 1`, `G = 0`, the constant-one hypergeometric, a Brent stub returning
the root `0`, and residual tolerance `0`. -/
theorem C5_witness :
    0 < (TStat [(0 : ℝ), 1] [(0 : ℝ), 1] 0).NEff ∧
    (TStat [(0 : ℝ), 1] [(0 : ℝ), 1] 0).Sp ≠ 0 ∧
    (Mom.CI (fun _ _ _ _ => some 0) (fun _ _ _ _ => 1) ⟨0⟩ [0, 1] [0, 1] 1 =
      ((((TStat [(0 : ℝ), 1] [(0 : ℝ), 1] 0).Mean1 - (TStat [(0 : ℝ), 1] [(0 : ℝ), 1] 0).Mean2 -
          (TStat [(0 : ℝ), 1] [(0 : ℝ), 1] 0).Sp /
            Real.sqrt (TStat [(0 : ℝ), 1] [(0 : ℝ), 1] 0).NEff * 0 : ℝ) : EReal),
        (((TStat [(0 : ℝ), 1] [(0 : ℝ), 1] 0).Mean1 - (TStat [(0 : ℝ), 1] [(0 : ℝ), 1] 0).Mean2 +
          (TStat [(0 : ℝ), 1] [(0 : ℝ), 1] 0).Sp /
            Real.sqrt (TStat [(0 : ℝ), 1] [(0 : ℝ), 1] 0).NEff * 0 : ℝ) : EReal)) ∧
      |Mom.eValue (fun _ _ _ _ => 1) ⟨0⟩
          ((TStat [(0 : ℝ), 1] [(0 : ℝ), 1] 0).Sp /
              Real.sqrt (TStat [(0 : ℝ), 1] [(0 : ℝ), 1] 0).NEff * 0 *
            Real.sqrt (TStat [(0 : ℝ), 1] [(0 : ℝ), 1] 0).NEff /
            (TStat [(0 : ℝ), 1] [(0 : ℝ), 1] 0).Sp)
          (TStat [(0 : ℝ), 1] [(0 : ℝ), 1] 0).Nu (TStat [(0 : ℝ), 1] [(0 : ℝ), 1] 0).NEff -
        1 / 1| ≤ 0) := by
  have hv : listVariance [(0 : ℝ), 1] = 1 / 2 := by
    norm_num [listVariance, listMean]
  have hne : 0 < (TStat [(0 : ℝ), 1] [(0 : ℝ), 1] 0).NEff := by
    norm_num [TStat]
  have hsp : (TStat [(0 : ℝ), 1] [(0 : ℝ), 1] 0).Sp ≠ 0 := by
    have hs : (TStat [(0 : ℝ), 1] [(0 : ℝ), 1] 0).Sp = Real.sqrt (1 / 2) := by
      norm_num [TStat, hv]
    rw [hs]
    positivity
  refine ⟨hne, hsp, C5_ci_success_roundtrip _ _ _ _ _ _ _ _ hne hsp ?_ ?_⟩
  · intro b r h
    injection h with h
    subst h
    norm_num [ciObjective, Mom.eValue, Real.one_rpow]
  · norm_num [ciSearch]

/-- Helper: in the doubling phase (`rate 2`, current left end positive with
negative value), if `f` becomes nonnegative at `a * 2^k` within the remaining
fuel, the loop returns a pair with a sign disagreement or an exact zero. -/
theorem bracketLoop_double_ok (f : ℝ → ℝ) :
    ∀ (n : ℕ) (a : ℝ), 0 < a → f a < 0 →
      (∃ k, k ≤ n ∧ 0 ≤ f (a * 2 ^ k)) →
      bracketProp f (bracketLoop f 2 n a (a * 2)) := by
  intro n
  induction n with
  | zero =>
    rintro a ha hfa ⟨k, hk, hfk⟩
    have hk0 : k = 0 := by omega
    subst hk0
    simp only [pow_zero, mul_one] at hfk
    linarith
  | succ n ih =>
    rintro a ha hfa ⟨k, hk, hfk⟩
    by_cases h2 : f (a * 2) < 0
    · have hcond : ¬ (((f a < 0) ≠ (f (a * 2) < 0)) ∨ f a = 0 ∨ f (a * 2) = 0) := by
        rintro (hne | h0 | h0)
        · exact hne (propext ⟨fun _ => h2, fun _ => hfa⟩)
        · linarith
        · linarith
      simp only [bracketLoop, if_neg hcond]
      apply ih (a * 2) (by linarith) h2
      have hk0 : k ≠ 0 := by
        rintro rfl
        simp only [pow_zero, mul_one] at hfk
        linarith
      obtain ⟨k2, rfl⟩ : ∃ k2, k = k2 + 1 := ⟨k - 1, by omega⟩
      refine ⟨k2, by omega, ?_⟩
      have harg : a * 2 * 2 ^ k2 = a * 2 ^ (k2 + 1) := by ring
      rw [harg]
      exact hfk
    · have hcond : ((f a < 0) ≠ (f (a * 2) < 0)) ∨ f a = 0 ∨ f (a * 2) = 0 := by
        left
        intro heq
        exact h2 (heq.mp hfa)
      simp only [bracketLoop, if_pos hcond]
      exact hcond

/-- Helper: in the shrinking phase (`rate 1/2`, current left end positive with
positive value), if `f` becomes nonpositive at `a * (1/2)^k` within the
remaining fuel, the loop returns a pair with a sign disagreement or an exact
zero. -/
theorem bracketLoop_half_ok (f : ℝ → ℝ) :
    ∀ (n : ℕ) (a : ℝ), 0 < a → 0 < f a →
      (∃ k, k ≤ n ∧ f (a * (1 / 2) ^ k) ≤ 0) →
      bracketProp f (bracketLoop f (1 / 2) n a (a * (1 / 2))) := by
  intro n
  induction n with
  | zero =>
    rintro a ha hfa ⟨k, hk, hfk⟩
    have hk0 : k = 0 := by omega
    subst hk0
    simp only [pow_zero, mul_one] at hfk
    linarith
  | succ n ih =>
    rintro a ha hfa ⟨k, hk, hfk⟩
    have hfa' : ¬ (f a < 0) := not_lt.mpr hfa.le
    rcases lt_trichotomy (f (a * (1 / 2))) 0 with hneg | hzero | hpos
    · have hcond : ((f a < 0) ≠ (f (a * (1 / 2)) < 0)) ∨ f a = 0 ∨ f (a * (1 / 2)) = 0 := by
        left
        intro heq
        exact hfa' (heq.mpr hneg)
      simp only [bracketLoop, if_pos hcond]
      exact hcond
    · have hcond : ((f a < 0) ≠ (f (a * (1 / 2)) < 0)) ∨ f a = 0 ∨ f (a * (1 / 2)) = 0 :=
        Or.inr (Or.inr hzero)
      simp only [bracketLoop, if_pos hcond]
      exact hcond
    · have hcond : ¬ (((f a < 0) ≠ (f (a * (1 / 2)) < 0)) ∨ f a = 0 ∨ f (a * (1 / 2)) = 0) := by
        rintro (hne | h0 | h0)
        · exact hne (propext ⟨fun h => absurd h hfa', fun h => absurd h (not_lt.mpr hpos.le)⟩)
        · linarith
        · linarith
      simp only [bracketLoop, if_neg hcond]
      apply ih (a * (1 / 2)) (by linarith) hpos
      have hk0 : k ≠ 0 := by
        rintro rfl
        simp only [pow_zero, mul_one] at hfk
        linarith
      obtain ⟨k2, rfl⟩ : ∃ k2, k = k2 + 1 := ⟨k - 1, by omega⟩
      refine ⟨k2, by omega, ?_⟩
      have harg : a * (1 / 2) * (1 / 2) ^ k2 = a * (1 / 2) ^ (k2 + 1) := by ring
      rw [harg]
      exact hfk

/-- Helper: when `f` is positive on the positives and the rate is positive, the
loop starting from positive endpoints returns positive endpoints (so no sign
change and no zero is ever found). -/
theorem bracketLoop_stays_pos (f : ℝ → ℝ) (r : ℝ) (hr : 0 < r)
    (hpos : ∀ v : ℝ, 0 < v → 0 < f v) :
    ∀ (n : ℕ) (a b : ℝ), 0 < a → 0 < b →
      0 < (bracketLoop f r n a b).1 ∧ 0 < (bracketLoop f r n a b).2 := by
  intro n
  induction n with
  | zero =>
    intro a b ha hb
    exact ⟨ha, hb⟩
  | succ n ih =>
    intro a b ha hb
    have hfa := hpos a ha
    have hfb := hpos b hb
    have hcond : ¬ (((f a < 0) ≠ (f b < 0)) ∨ f a = 0 ∨ f b = 0) := by
      rintro (hne | h0 | h0)
      · exact hne (propext ⟨fun h => absurd h (not_lt.mpr hfa.le),
          fun h => absurd h (not_lt.mpr hfb.le)⟩)
      · linarith
      · linarith
    simp only [bracketLoop, if_neg hcond]
    exact ih b (b * r) hb (mul_pos hb hr)

/-- C9 counterexample: for the monotonically increasing function `f = id`
(root `r = 0`) and the guess `1`, the pair returned by `findBracketMono` has
no sign change and no zero endpoint: the halving phase would need more than
the 200-iteration budget to reach the root. -/
theorem C9_counterexample :
    Monotone (fun v : ℝ => v) ∧ (fun v : ℝ => v) 0 = 0 ∧ (1 : ℝ) ≠ 0 ∧
      ¬ bracketProp (fun v : ℝ => v) (findBracketMono (fun v : ℝ => v) 1) := by
  refine ⟨fun _ _ h => h, rfl, one_ne_zero, ?_⟩
  have hng : normGuess (fun v : ℝ => v) 1 = 1 := by
    unfold normGuess
    rw [if_neg]
    rintro (⟨h1, _⟩ | ⟨_, h2⟩)
    · norm_num at h1
    · norm_num at h2
  have hrate : expandRate (fun v : ℝ => v) 1 = 1 / 2 := by
    unfold expandRate
    rw [if_neg]
    intro heq
    have h1 : (1 : ℝ) < 0 := heq.mp one_pos
    norm_num at h1
  have hres := bracketLoop_stays_pos (fun v : ℝ => v) (1 / 2) (by norm_num)
    (fun v hv => hv) 200 1 (1 * (1 / 2)) one_pos (by norm_num)
  intro hbp
  unfold findBracketMono at hbp
  rw [hng, hrate] at hbp
  rcases hbp with hne | h0 | h0
  · exact hne (propext ⟨fun h => absurd h (not_lt.mpr hres.1.le),
      fun h => absurd h (not_lt.mpr hres.2.le)⟩)
  · exact hres.1.ne' h0
  · exact hres.2.ne' h0

/-- C9 (amended): for a monotonically increasing `f` with a root `rt` and a
positive guess `g`, if either `f(g) < 0` and `rt ≤ g * 2^200` (doubling side)
or `f(g) > 0`, `rt > 0` and `g ≤ rt * 2^200` (halving side) — i.e. the root is
within reach of the 200-iteration budget — then `findBracketMono(f, g)`
returns a pair whose endpoint signs disagree or where `f` is exactly zero. -/
theorem C9_findBracketMono_brackets (f : ℝ → ℝ) (g rt : ℝ) (hf : Monotone f)
    (hrt : f rt = 0) (hg : 0 < g)
    (hcase : (f g < 0 ∧ rt ≤ g * 2 ^ 200) ∨ (0 < f g ∧ 0 < rt ∧ g ≤ rt * 2 ^ 200)) :
    bracketProp f (findBracketMono f g) := by
  rcases hcase with ⟨hfg, hbound⟩ | ⟨hfg, hrtpos, hbound⟩
  · have hglt : g < rt := by
      by_contra hle
      push_neg at hle
      have h1 := hf hle
      rw [hrt] at h1
      linarith
    have hf0 : f 0 < 0 := lt_of_le_of_lt (hf hg.le) hfg
    have hng : normGuess f g = g := by
      unfold normGuess
      rw [if_neg]
      rintro (⟨h1, _⟩ | ⟨_, h2⟩)
      · linarith
      · linarith
    have hrate : expandRate f g = 2 := by
      unfold expandRate
      rw [if_pos (propext ⟨fun _ => hfg, fun _ => hg⟩)]
    unfold findBracketMono
    rw [hng, hrate]
    apply bracketLoop_double_ok f 200 g hg hfg
    refine ⟨200, le_rfl, ?_⟩
    have h1 := hf hbound
    rw [hrt] at h1
    exact h1
  · have hf0 : f 0 ≤ 0 := by
      have h1 := hf hrtpos.le
      rw [hrt] at h1
      exact h1
    have hng : normGuess f g = g := by
      unfold normGuess
      rw [if_neg]
      rintro (⟨h1, _⟩ | ⟨_, h2⟩)
      · linarith
      · linarith
    have hrate : expandRate f g = 1 / 2 := by
      unfold expandRate
      rw [if_neg]
      intro heq
      exact absurd (heq.mp hg) (not_lt.mpr hfg.le)
    unfold findBracketMono
    rw [hng, hrate]
    apply bracketLoop_half_ok f 200 g hg hfg
    refine ⟨200, le_rfl, ?_⟩
    have harg : g * (1 / 2) ^ 200 ≤ rt := by
      have h2 : (0 : ℝ) < 2 ^ 200 := by positivity
      have hpow : ((1 : ℝ) / 2) ^ 200 = 1 / 2 ^ 200 := by
        rw [div_pow, one_pow]
      rw [hpow, mul_one_div, div_le_iff₀ h2]
      linarith
    have h1 := hf harg
    rw [hrt] at h1
    exact h1

/-- C9 witness: the amended theorem instantiated on the doubling side at
`f v = v - 2`, guess `1`, root `2`. -/
theorem C9_witness :
    Monotone (fun v : ℝ => v - 2) ∧ (fun v : ℝ => v - 2) 2 = 0 ∧ (0 : ℝ) < 1 ∧
      ((fun v : ℝ => v - 2) 1 < 0 ∧ (2 : ℝ) ≤ 1 * 2 ^ 200) ∧
      bracketProp (fun v : ℝ => v - 2) (findBracketMono (fun v : ℝ => v - 2) 1) := by
  have hmono : Monotone (fun v : ℝ => v - 2) := fun _ _ h => sub_le_sub_right h 2
  refine ⟨hmono, by norm_num, by norm_num, ⟨by norm_num, by norm_num⟩, ?_⟩
  exact C9_findBracketMono_brackets (fun v => v - 2) 1 2 hmono (by norm_num) (by norm_num)
    (Or.inl ⟨by norm_num, by norm_num⟩)

/-- C2: `NoncentralT.Quantile` returns the sentinel `-1` for every input, so
the objective that `getNPlanBatch` passes to the bracket finder and to Brent
equals `eValue(-1, (1+ratio)^2/ratio*nEff - 2, nEff) - 1/alpha` for every
candidate `nEff`; the noncentral-t quantile of `beta` never informs the
computed batch size. -/
theorem C2_quantile_stub_objective :
    (∀ (dist : NoncentralT) (pr : ℝ), dist.Quantile pr = -1) ∧
      ∀ (hyp : Hyper2F1) (p : Mom) (alpha beta delta rat nEff : ℝ),
        nPlanObjective hyp p alpha beta delta rat nEff =
          p.eValue hyp (-1) ((1 + rat) ^ 2 / rat * nEff - 2) nEff - 1 / alpha :=
  ⟨fun _ _ => rfl, fun _ _ _ _ _ _ _ => rfl⟩

/-- C3 (code evaluation): when Brent reports failure on the bracket produced
for the nPlan objective, `getNPlanBatch` returns the sentinel pair `(-1, -1)`;
`GetNPlan` then builds an empty checkpoint vector and passes the negative
length `max(-1, -1) = -1` to `make`, so no `NPlan` satisfying
`Mean ≤ N ≤ Batch` is produced. -/
theorem C3_sentinel_breaks_planner (brent : BrentSolver) (hyp : Hyper2F1)
    (normQ : ℝ → ℝ) (alpha beta delta rat G : ℝ)
    (hfail : brent (nPlanObjective hyp ⟨G⟩ alpha beta |delta| rat)
      (findBracketMono (nPlanObjective hyp ⟨G⟩ alpha beta |delta| rat)
        (gnpGuess normQ alpha beta |delta|)).1
      (findBracketMono (nPlanObjective hyp ⟨G⟩ alpha beta |delta| rat)
        (gnpGuess normQ alpha beta |delta|)).2
      (machineEps ^ (0.25 : ℝ)) = none) :
    getNPlanBatch brent hyp normQ alpha beta delta rat ⟨G⟩ = (-1, -1) ∧
      gnpN1Vector (getNPlanBatch brent hyp normQ alpha beta delta rat ⟨G⟩).1 = [] ∧
      gnpSampleLen (getNPlanBatch brent hyp normQ alpha beta delta rat ⟨G⟩).1
        (getNPlanBatch brent hyp normQ alpha beta delta rat ⟨G⟩).2 < 0 := by
  have hb : getNPlanBatch brent hyp normQ alpha beta delta rat ⟨G⟩ = (-1, -1) := by
    unfold getNPlanBatch
    rw [hfail]
  refine ⟨hb, ?_, ?_⟩
  · rw [hb]
    rfl
  · rw [hb]
    decide

/-- C3 witness: the sentinel propagation evaluated at the repository's own
test input `alpha = 0.05`, `beta = 0.2`, `deltaMin = 0.51765`, `ratio = 1`,
with an always-failing Brent stub. -/
theorem C3_witness :
    getNPlanBatch (fun _ _ _ _ => none) (fun _ _ _ _ => 0) (fun _ => 0)
        0.05 0.2 0.51765 1 ⟨0.51765 * 0.51765 / 2⟩ = (-1, -1) ∧
      gnpN1Vector (getNPlanBatch (fun _ _ _ _ => none) (fun _ _ _ _ => 0) (fun _ => 0)
        0.05 0.2 0.51765 1 ⟨0.51765 * 0.51765 / 2⟩).1 = [] ∧
      gnpSampleLen (getNPlanBatch (fun _ _ _ _ => none) (fun _ _ _ _ => 0) (fun _ => 0)
          0.05 0.2 0.51765 1 ⟨0.51765 * 0.51765 / 2⟩).1
        (getNPlanBatch (fun _ _ _ _ => none) (fun _ _ _ _ => 0) (fun _ => 0)
          0.05 0.2 0.51765 1 ⟨0.51765 * 0.51765 / 2⟩).2 < 0 :=
  C3_sentinel_breaks_planner (fun _ _ _ _ => none) (fun _ _ _ _ => 0) (fun _ => 0)
    0.05 0.2 0.51765 1 (0.51765 * 0.51765 / 2) rfl

/-- Helper: expansion of the sum of squared deviations from an arbitrary
center over a list. -/
theorem sum_sq_dev (l : List ℝ) (c : ℝ) :
    (l.map fun v => (v - c) ^ 2).sum =
      (l.map fun v => v * v).sum - 2 * c * l.sum + l.length * c ^ 2 := by
  induction l with
  | nil => simp
  | cons a tl ih =>
    simp only [List.map_cons, List.sum_cons, List.length_cons, ih]
    push_cast
    ring

/-- Helper: the Bessel-corrected sample variance satisfies
`(n-1) * Var(l) = sum of squares - n * mean^2` for any nonempty list
(for a singleton both sides are zero). -/
theorem bessel_identity (l : List ℝ) (hl : l ≠ []) :
    ((l.length : ℝ) - 1) * listVariance l =
      (l.map fun v => v * v).sum - (l.length : ℝ) * (listMean l * listMean l) := by
  have hpos : 0 < l.length := List.length_pos.mpr hl
  have hn0 : (l.length : ℝ) ≠ 0 := by
    exact_mod_cast Nat.pos_iff_ne_zero.mp hpos
  have hsum : l.sum = (l.length : ℝ) * listMean l := by
    unfold listMean
    field_simp
  by_cases hone : l.length = 1
  · obtain ⟨a, rfl⟩ := List.length_eq_one.mp hone
    simp only [listVariance, listMean, List.map_cons, List.map_nil, List.sum_cons,
      List.sum_nil, List.length_cons, List.length_nil]
    norm_num
  · have hne1 : (l.length : ℝ) - 1 ≠ 0 := by
      have h2 : 2 ≤ l.length := by omega
      have h2' : (2 : ℝ) ≤ l.length := by exact_mod_cast h2
      linarith
    unfold listVariance
    rw [mul_comm, div_mul_cancel₀ _ hne1, sum_sq_dev l (listMean l), hsum]
    ring

/-- Helper: for a prefix of length `m` of a sample list, the mean and the
Bessel-corrected deviation sum are determined by the cumulative reads
`cumSumAt` and `cumSqAt`. -/
theorem take_stats (s : List ℝ) (m : ℕ) (hm : 1 ≤ m) (hml : m ≤ s.length) :
    listMean (s.take m) = cumSumAt s m / m ∧
      ((m : ℝ) - 1) * listVariance (s.take m) =
        cumSqAt s m - (m : ℝ) * (cumSumAt s m / m) * (cumSumAt s m / m) := by
  have hl : (s.take m).length = m := by
    rw [List.length_take]
    omega
  have hne : s.take m ≠ [] := by
    intro h
    rw [h] at hl
    simp at hl
    omega
  constructor
  · unfold listMean cumSumAt
    rw [hl]
  · have hb := bessel_identity (s.take m) hne
    rw [hl] at hb
    unfold listMean at hb
    rw [hl] at hb
    unfold cumSqAt cumSumAt
    rw [hb]
    ring

/-- C10: at every checkpoint of a simulated trial of `GetNPlan` with
`nu = n1 + n2 - 2 > 0`, the e-value computed from the per-trial cumulative-sum
and cumulative-sum-of-squares reads equals the naive computation — `Mom`'s
e-value of `TStat` applied to the sample prefixes — and at every checkpoint
with `nu ≤ 0` the recorded e-value is `1`. -/
theorem C10_checkpoint_matches_naive (hyp : Hyper2F1) (p : Mom) (s1 s2 : List ℝ)
    (m1 m2 : ℕ) (hm1 : 1 ≤ m1) (hm1l : m1 ≤ s1.length)
    (hm2 : 1 ≤ m2) (hm2l : m2 ≤ s2.length) :
    (2 < m1 + m2 →
      checkpointEValue hyp p s1 s2 m1 m2 = p.EValue hyp (s1.take m1) (s2.take m2)) ∧
    (m1 + m2 ≤ 2 → checkpointEValue hyp p s1 s2 m1 m2 = 1) := by
  obtain ⟨hmean1, hvar1⟩ := take_stats s1 m1 hm1 hm1l
  obtain ⟨hmean2, hvar2⟩ := take_stats s2 m2 hm2 hm2l
  have hl1 : (s1.take m1).length = m1 := by
    rw [List.length_take]
    omega
  have hl2 : (s2.take m2).length = m2 := by
    rw [List.length_take]
    omega
  constructor
  · intro hlt
    have hnu : (0 : ℝ) < (m1 : ℝ) + (m2 : ℝ) - 2 := by
      have h := (Nat.cast_lt (α := ℝ)).mpr hlt
      push_cast at h
      linarith
    simp only [checkpointEValue]
    rw [if_pos hnu]
    simp only [Mom.EValue, TStat, hl1, hl2, hmean1, hmean2]
    rw [sub_zero, hvar1, hvar2]
    ring_nf
  · intro hle
    have hnu : ¬ ((0 : ℝ) < (m1 : ℝ) + (m2 : ℝ) - 2) := by
      have h := (Nat.cast_le (α := ℝ)).mpr hle
      push_cast at h
      linarith
    simp only [checkpointEValue]
    rw [if_neg hnu]

/-- C10 witness: the refinement theorem instantiated at the samples
`s1 = [1, 2, 3]`, `s2 = [4, 5]` with checkpoint sizes `m1 = 2`, `m2 = 2`
(so `nu = 2 > 0`), together with the `nu ≤ 0` branch at `m1 = m2 = 1`. -/
theorem C10_witness :
    (checkpointEValue (fun _ _ _ _ => 1) ⟨1⟩ [(1 : ℝ), 2, 3] [(4 : ℝ), 5] 2 2 =
      Mom.EValue (fun _ _ _ _ => 1) ⟨1⟩ ([(1 : ℝ), 2, 3].take 2) ([(4 : ℝ), 5].take 2)) ∧
      checkpointEValue (fun _ _ _ _ => 1) ⟨1⟩ [(1 : ℝ), 2, 3] [(4 : ℝ), 5] 1 1 = 1 :=
  ⟨(C10_checkpoint_matches_naive (fun _ _ _ _ => 1) ⟨1⟩ [(1 : ℝ), 2, 3] [(4 : ℝ), 5] 2 2
      (by norm_num) (by norm_num) (by norm_num) (by norm_num)).1 (by norm_num),
    (C10_checkpoint_matches_naive (fun _ _ _ _ => 1) ⟨1⟩ [(1 : ℝ), 2, 3] [(4 : ℝ), 5] 1 1
      (by norm_num) (by norm_num) (by norm_num) (by norm_num)).2 (by norm_num)⟩

/-- C8: for every configuration `{nu, ncp}` with `nu ≤ 0` and every argument
`t`, `NoncentralT.CDF(t)` returns the NaN signal (modelled as `none`),
regardless of the external incomplete-beta and erfc primitives; the embedded
function is total, so no exception is raised. -/
theorem C8_cdf_nan_for_nonpositive_nu (pbeta : ℝ → ℝ → ℝ → ℝ) (erfc : ℝ → ℝ)
    (dist : NoncentralT) (t : ℝ) (hnu : dist.Nu ≤ 0) :
    dist.CDF pbeta erfc t = none := by
  unfold NoncentralT.CDF
  rw [if_pos hnu]

/-- C8 witness: the guard theorem evaluated at `nu = -1`, `ncp = 0`, `t = 3`
with zero stubs for the external primitives. -/
theorem C8_witness :
    (-1 : ℝ) ≤ 0 ∧
      (NoncentralT.mk (-1) 0).CDF (fun _ _ _ => 0) (fun _ => 0) 3 = none :=
  ⟨by norm_num,
    C8_cdf_nan_for_nonpositive_nu (fun _ _ _ => 0) (fun _ => 0) (NoncentralT.mk (-1) 0) 3
      (by norm_num)⟩

end

end EvalueVerif
